import Mathlib

/-
  Verification of the poker-hand-evaluator repository.

  Shallow embedding of src/index.js (namespace Poker) and of
  src/inject/hand-evaluator.js (namespace PokerInject).  JavaScript numbers
  are modelled by Nat / Int where the source only ever holds small integers
  (ranks, suits, categories, tiebreakers) and by the rationals where the
  source computes fractional equities (every arithmetic step performed by the
  source on those values is exact in binary floating point at the granularity
  the claims compare, so the rational model is faithful).  A JavaScript value
  that may be a number, null or undefined is modelled by the JSNum type.
-/

namespace Poker

/-- A parsed card: rank index 0-12 into RANKS, suit index 0-3 into SUITS. -/
structure Card where
  rank : Nat
  suit : Nat
  deriving DecidableEq, Repr

/-- const RANKS = ['2','3','4','5','6','7','8','9','T','J','Q','K','A'] -/
def RANKS : List String := ["2", "3", "4", "5", "6", "7", "8", "9", "T", "J", "Q", "K", "A"]

/-- const SUITS = ['s','h','d','c'] -/
def SUITS : List String := ["s", "h", "d", "c"]

/-- The rank table at character granularity (every entry of RANKS is a
single-character string). -/
def RANKSC : List Char := ['2', '3', '4', '5', '6', '7', '8', '9', 'T', 'J', 'Q', 'K', 'A']

/-- The suit table at character granularity. -/
def SUITSC : List Char := ['s', 'h', 'd', 'c']

/-- First index of a character in a table, modelling the RANK_IDX / SUIT_IDX
object lookups of the source (each object maps the table entries to their
positions). -/
def indexIn (l : List Char) (c : Char) : Option Nat :=
  match l with
  | [] => none
  | x :: xs => if x = c then some 0 else (indexIn xs c).map (· + 1)

/-- RANK_IDX lookup applied to the rank slice of a token: the keys of
RANK_IDX are exactly the single-character strings of RANKS, so a slice of
any other length never matches. -/
def rankIdx (cs : List Char) : Option Nat :=
  match cs with
  | [c] => indexIn RANKSC c
  | _ => none

/-- parseCard (index.js lines 29-37).  A missing / non-string argument is
handled by parseCardOpt below; here the argument is a genuine string.
str.slice(0, 2) and str.slice(0, -1) become List.take on the character
list; str.slice(-1).toLowerCase() is the lower-cased last character. -/
def parseCard (t : String) : Option Card :=
  let cs := t.toList
  if cs.length < 2 then none
  else
    let rankCs := if cs.length = 3 then cs.take 2 else cs.take (cs.length - 1)
    let suitC := (cs.getLast?.getD ' ').toLower
    match rankIdx rankCs, indexIn SUITSC suitC with
    | some r, some s => some ⟨r, s⟩
    | _, _ => none

/-- parseCard applied to a possibly-absent (null / undefined / non-string)
argument: the guard on line 30 rejects it. -/
def parseCardOpt (t : Option String) : Option Card :=
  match t with
  | none => none
  | some s => parseCard s

/-- cardToString (index.js lines 39-41): RANKS[card.rank] + SUITS[card.suit].
An out-of-range field would read undefined in the source; the "?" default
is never reached for valid cards. -/
def cardToString (card : Card) : String :=
  RANKS.getD card.rank "?" ++ SUITS.getD card.suit "?"

/-- Result record of evaluate5: { rank, tiebreaker, name }. -/
structure HandEval where
  rank : Int
  tiebreaker : List Int
  name : String
  deriving DecidableEq, Repr

instance : Inhabited HandEval := ⟨⟨0, [], ""⟩⟩

/-- The comparator (a, b) => b.rank - a.rank of line 48, as the relation
"a precedes b", i.e. rank descending. -/
def rankGe (a b : Card) : Prop := b.rank ≤ a.rank

instance : DecidableRel rankGe := fun a b => Nat.decLe b.rank a.rank

instance : IsTotal Card rankGe := ⟨fun a b => Nat.le_total b.rank a.rank⟩

instance : IsTrans Card rankGe := ⟨fun _ _ _ h1 h2 => Nat.le_trans h2 h1⟩

/-- [...cards].sort((a, b) => b.rank - a.rank) (line 48). -/
def sortCards (cards : List Card) : List Card := cards.insertionSort rankGe

/-- ranks = sorted.map(c => c.rank) (line 49), as integers. -/
def ranksOf (cards : List Card) : List Int :=
  (sortCards cards).map fun c => (c.rank : Int)

/-- suits = sorted.map(c => c.suit) (line 50). -/
def suitsOf (cards : List Card) : List Nat :=
  (sortCards cards).map fun c => c.suit

/-- isFlush = new Set(suits).size === 1 (line 52): the number of distinct
suits is the length of the deduplicated list. -/
def flushOf (cards : List Card) : Bool :=
  decide ((suitsOf cards).dedup.length = 1)

/-- Straight detection (lines 56-69) over the descending rank list: returns
(isStraight, straightHigh).  It fires only with exactly 5 distinct ranks;
the wheel check runs second and overwrites the high card when it matches. -/
def straightInfo (ranks : List Int) (uniqueRanks : Nat) : Bool × Int :=
  if uniqueRanks = 5 then
    let plain :=
      if ranks.getD 0 0 - ranks.getD 4 0 = 4 then (true, ranks.getD 0 0) else (false, (-1 : Int))
    if ranks.getD 0 0 = 12 ∧ ranks.getD 1 0 = 3 ∧ ranks.getD 2 0 = 2 ∧
        ranks.getD 3 0 = 1 ∧ ranks.getD 4 0 = 0 then
      (true, 3)
    else plain
  else (false, -1)

/-- A rank-frequency group { rank, count } (lines 74-76). -/
structure RankGroup where
  rank : Int
  count : Nat
  deriving DecidableEq, Repr

/-- The group comparator (b[1] - a[1] || parseInt(b[0]) - parseInt(a[0])):
count descending, then rank descending, as the relation "a precedes b". -/
def pairLe (a b : Int × Nat) : Prop := b.2 < a.2 ∨ (a.2 = b.2 ∧ b.1 ≤ a.1)

instance : DecidableRel pairLe := fun a b => by unfold pairLe; exact inferInstance

/-- JavaScript object iteration over the frequency map visits the distinct
integer-like keys in ascending numeric order. -/
def keysAsc (ranks : List Int) : List Int := ranks.dedup.insertionSort (· ≤ ·)

/-- groups (index.js lines 72-76): Object.entries(freq) produces the
(rank, count) pairs in ascending key order, they are sorted by the group
comparator, then mapped to { rank, count } records. -/
def groupsOf (ranks : List Int) : List RankGroup :=
  ((((keysAsc ranks).map fun r => (r, ranks.count r)).insertionSort pairLe).map
    fun p => RankGroup.mk p.1 p.2)

/-- The classification cascade of evaluate5 (lines 78-106), as a function of
the descending rank list and the flush flag (everything else the branches
consult is computed from the rank list).  The numeric category literals are
the HAND_RANK constants of lines 17-27. -/
def evaluate5Core (ranks : List Int) (isFlush : Bool) : HandEval :=
  let uniqueRanks := ranks.dedup.length
  let st := straightInfo ranks uniqueRanks
  let groups := groupsOf ranks
  let g0 := groups.getD 0 ⟨0, 0⟩
  let g1 := groups.getD 1 ⟨0, 0⟩
  if isFlush ∧ st.1 then
    ⟨8, [st.2], if st.2 = 12 then "Royal Flush" else "Straight Flush"⟩
  else if g0.count = 4 then ⟨7, groups.map (·.rank), "Four of a Kind"⟩
  else if g0.count = 3 ∧ g1.count = 2 then ⟨6, groups.map (·.rank), "Full House"⟩
  else if isFlush then ⟨5, ranks, "Flush"⟩
  else if st.1 then ⟨4, [st.2], "Straight"⟩
  else if g0.count = 3 then ⟨3, groups.map (·.rank), "Three of a Kind"⟩
  else if g0.count = 2 ∧ g1.count = 2 then ⟨2, groups.map (·.rank), "Two Pair"⟩
  else if g0.count = 2 then ⟨1, groups.map (·.rank), "One Pair"⟩
  else ⟨0, ranks, "High Card"⟩

/-- evaluate5 (index.js lines 47-107). -/
def evaluate5 (cards : List Card) : HandEval :=
  evaluate5Core (ranksOf cards) (flushOf cards)

/-- The tiebreaker loop of compareHands: compares positions i, i+1, ... for
fuel steps, reading -1 past the end of either list (the ?? -1 default). -/
def cmpFrom (a b : List Int) : Nat → Nat → Int
  | _, 0 => 0
  | i, fuel + 1 =>
    let av := a.getD i (-1)
    let bv := b.getD i (-1)
    if av ≠ bv then av - bv else cmpFrom a b (i + 1) fuel

/-- compareHands (index.js lines 112-121). -/
def compareHands (a b : HandEval) : Int :=
  if a.rank ≠ b.rank then a.rank - b.rank
  else cmpFrom a.tiebreaker b.tiebreaker 0 (max a.tiebreaker.length b.tiebreaker.length)

/-- All k-element combinations of a list, in the order the nested index
loops of evaluate7 (lines 136-147) produce them: combinations containing
the first element (outermost index smallest) come first, recursively in the
same order. -/
def combos {α : Type} : Nat → List α → List (List α)
  | 0, _ => [[]]
  | _ + 1, [] => []
  | k + 1, x :: xs => ((combos k xs).map fun t => x :: t) ++ combos (k + 1) xs

/-- One step of the running-best update (line 142):
if (!best || compareHands(hand, best) > 0) best = hand. -/
def step (best : Option HandEval) (hand : HandEval) : Option HandEval :=
  match best with
  | none => some hand
  | some b => if compareHands hand b > 0 then some hand else some b

/-- evaluate7 (index.js lines 128-149). -/
def evaluate7 (cardStrings : List String) : Option HandEval :=
  let cards := cardStrings.filterMap parseCard
  if cards.length < 5 then none
  else ((combos 5 cards).map evaluate5).foldl step none

/-- preFlopStrength (index.js lines 156-183).  The destructuring
const [c1, c2] = ... followed by if (!c1 || !c2) return 0.5 means: take the
first two successfully parsed cards, and bail out to 0.5 when fewer than
two exist.  All arithmetic is exact in the rationals. -/
def preFlopStrength (holeCards : List String) : ℚ :=
  if holeCards.length < 2 then 1 / 2
  else
    match holeCards.filterMap parseCard with
    | c1 :: c2 :: _ =>
      let hi := max c1.rank c2.rank
      let lo := min c1.rank c2.rank
      let suited := c1.suit = c2.suit
      let isPair := hi = lo
      let gap := hi - lo
      let score : ℚ :=
        if isPair then
          let base : ℚ := 2 * hi
          let over : ℚ :=
            if hi = 12 then 20 else if hi = 11 then 16
            else if hi = 10 then 14 else if hi = 9 then 12 else base
          max 5 over
        else
          (hi : ℚ) * (1 / 2) + (if suited then 2 else 0) + (if gap ≤ 1 then 1 else 0)
            - max 0 ((gap : ℚ) - 3)
      max (1 / 20) (min (49 / 50) (score / 20))
    | _ => 1 / 2

/-- A JavaScript numeric option that may be undefined, null, or a number. -/
inductive JSNum where
  | undef : JSNum
  | null : JSNum
  | int : Int → JSNum
  deriving DecidableEq, Repr

/-- The fixed category-to-equity lookup table of winProbability (line 198). -/
def TABLE : List ℚ :=
  [1 / 10, 19 / 50, 11 / 20, 17 / 25, 18 / 25, 77 / 100, 43 / 50, 93 / 100, 97 / 100]

/-- TABLE[result.rank] ?? 0.5: a negative or out-of-range index reads
undefined in the source and falls back to 0.5. -/
def tableAt (idx : Int) : ℚ :=
  if idx < 0 then 1 / 2 else TABLE.getD idx.toNat (1 / 2)

/-- winProbability (index.js lines 190-203).  The destructuring default
numOpponents = 1 applies only when the field is undefined; a null value
passes through and JavaScript coerces it to 0 in numOpponents - 1. -/
def winProbability (holeCards boardCards : List String) (numOpponents : JSNum) : ℚ :=
  if holeCards.length < 2 then 1 / 2
  else
    let equity : ℚ :=
      if boardCards.length = 0 then preFlopStrength holeCards
      else
        match evaluate7 (holeCards ++ boardCards) with
        | some result => tableAt result.rank
        | none => 1 / 2
    let n : Int := match numOpponents with | .undef => 1 | .null => 0 | .int m => m
    max (1 / 100) (equity * (22 / 25 : ℚ) ^ (max 0 (n - 1)).toNat)

/-- The HAND_RANK constant object (lines 17-27). -/
structure HandRankEnum where
  HIGH_CARD : Int
  ONE_PAIR : Int
  TWO_PAIR : Int
  THREE_OF_A_KIND : Int
  STRAIGHT : Int
  FLUSH : Int
  FULL_HOUSE : Int
  FOUR_OF_A_KIND : Int
  STRAIGHT_FLUSH : Int
  deriving DecidableEq, Repr

def HAND_RANK : HandRankEnum := ⟨0, 1, 2, 3, 4, 5, 6, 7, 8⟩

end Poker

namespace PokerInject

/-
  Embedding of src/inject/hand-evaluator.js, the browser IIFE.  The card
  tables, parseCard, cardToString, compareHands and the evaluate7 loops are
  character-for-character the same algorithms as in index.js and embed to
  the same Lean text; the genuinely differing functions are groupsOf
  (Object.keys + map + sort instead of Object.entries + sort + map),
  preFlopStrength (an explicit parsed.length < 2 guard instead of
  destructuring), and winProbability (numOpponents != null ? v : 1 treats
  null like undefined, where index.js lets null through).
-/

open Poker (Card HandEval RankGroup JSNum rankGe)

def RANKS : List String := ["2", "3", "4", "5", "6", "7", "8", "9", "T", "J", "Q", "K", "A"]

def SUITS : List String := ["s", "h", "d", "c"]

/-- parseCard (inject lines 31-39), identical algorithm to index.js. -/
def parseCard (t : String) : Option Card :=
  let cs := t.toList
  if cs.length < 2 then none
  else
    let rankCs := if cs.length = 3 then cs.take 2 else cs.take (cs.length - 1)
    let suitC := (cs.getLast?.getD ' ').toLower
    match Poker.rankIdx rankCs, Poker.indexIn Poker.SUITSC suitC with
    | some r, some s => some ⟨r, s⟩
    | _, _ => none

/-- cardToString (inject lines 41-43). -/
def cardToString (card : Card) : String :=
  RANKS.getD card.rank "?" ++ SUITS.getD card.suit "?"

/-- groups (inject lines 67-71): Object.keys(freq) yields the distinct keys
ascending, each is mapped to a { rank, count } record, and the records are
sorted by (count desc, rank desc). -/
def groupLe (a b : RankGroup) : Prop := b.count < a.count ∨ (a.count = b.count ∧ b.rank ≤ a.rank)

instance : DecidableRel groupLe := fun a b => by unfold groupLe; exact inferInstance

def groupsOf (ranks : List Int) : List RankGroup :=
  (((Poker.keysAsc ranks).map fun r => RankGroup.mk r (ranks.count r)).insertionSort groupLe)

/-- evaluate5 (inject lines 45-98): same cascade as index.js, with the
groups built object-first. -/
def evaluate5 (cards : List Card) : HandEval :=
  let ranks := Poker.ranksOf cards
  let isFlush := Poker.flushOf cards
  let uniqueRanks := ranks.dedup.length
  let st := Poker.straightInfo ranks uniqueRanks
  let groups := groupsOf ranks
  let g0 := groups.getD 0 ⟨0, 0⟩
  let g1 := groups.getD 1 ⟨0, 0⟩
  if isFlush ∧ st.1 then
    ⟨8, [st.2], if st.2 = 12 then "Royal Flush" else "Straight Flush"⟩
  else if g0.count = 4 then ⟨7, groups.map (·.rank), "Four of a Kind"⟩
  else if g0.count = 3 ∧ g1.count = 2 then ⟨6, groups.map (·.rank), "Full House"⟩
  else if isFlush then ⟨5, ranks, "Flush"⟩
  else if st.1 then ⟨4, [st.2], "Straight"⟩
  else if g0.count = 3 then ⟨3, groups.map (·.rank), "Three of a Kind"⟩
  else if g0.count = 2 ∧ g1.count = 2 then ⟨2, groups.map (·.rank), "Two Pair"⟩
  else if g0.count = 2 then ⟨1, groups.map (·.rank), "One Pair"⟩
  else ⟨0, ranks, "High Card"⟩

/-- compareHands (inject lines 100-109): a.tiebreaker[i] != null ? ... : -1
is the same null-coalescing read as index.js. -/
def compareHands (a b : HandEval) : Int :=
  if a.rank ≠ b.rank then a.rank - b.rank
  else Poker.cmpFrom a.tiebreaker b.tiebreaker 0 (max a.tiebreaker.length b.tiebreaker.length)

def step (best : Option HandEval) (hand : HandEval) : Option HandEval :=
  match best with
  | none => some hand
  | some b => if compareHands hand b > 0 then some hand else some b

/-- evaluate7 (inject lines 111-130). -/
def evaluate7 (cardStrings : List String) : Option HandEval :=
  let cards := cardStrings.filterMap parseCard
  if cards.length < 5 then none
  else ((Poker.combos 5 cards).map evaluate5).foldl step none

/-- preFlopStrength (inject lines 132-160): explicit parsed.length < 2
guard, then parsed[0] and parsed[1]. -/
def preFlopStrength (holeCards : List String) : ℚ :=
  if holeCards.length < 2 then 1 / 2
  else
    let parsed := holeCards.filterMap parseCard
    if parsed.length < 2 then 1 / 2
    else
      let c1 := parsed.getD 0 ⟨0, 0⟩
      let c2 := parsed.getD 1 ⟨0, 0⟩
      let hi := max c1.rank c2.rank
      let lo := min c1.rank c2.rank
      let suited := c1.suit = c2.suit
      let isPair := hi = lo
      let gap := hi - lo
      let score : ℚ :=
        if isPair then
          let base : ℚ := 2 * hi
          let over : ℚ :=
            if hi = 12 then 20 else if hi = 11 then 16
            else if hi = 10 then 14 else if hi = 9 then 12 else base
          max 5 over
        else
          (hi : ℚ) * (1 / 2) + (if suited then 2 else 0) + (if gap ≤ 1 then 1 else 0)
            - max 0 ((gap : ℚ) - 3)
      max (1 / 20) (min (49 / 50) (score / 20))

def TABLE : List ℚ :=
  [1 / 10, 19 / 50, 11 / 20, 17 / 25, 18 / 25, 77 / 100, 43 / 50, 93 / 100, 97 / 100]

def tableAt (idx : Int) : ℚ :=
  if idx < 0 then 1 / 2 else TABLE.getD idx.toNat (1 / 2)

/-- winProbability (inject lines 162-179): numOpponents != null ? v : 1
replaces both null and undefined by 1. -/
def winProbability (holeCards boardCards : List String) (numOpponents : JSNum) : ℚ :=
  if holeCards.length < 2 then 1 / 2
  else
    let equity : ℚ :=
      if boardCards.length = 0 then preFlopStrength holeCards
      else
        match evaluate7 (holeCards ++ boardCards) with
        | some result => tableAt result.rank
        | none => 1 / 2
    let n : Int := match numOpponents with | .undef => 1 | .null => 1 | .int m => m
    max (1 / 100) (equity * (22 / 25 : ℚ) ^ (max 0 (n - 1)).toNat)

def HAND_RANK : Poker.HandRankEnum := ⟨0, 1, 2, 3, 4, 5, 6, 7, 8⟩

end PokerInject

namespace Poker

/-! ### Order-theoretic facts about the tiebreaker comparison loop -/

/-- One unfolding step of the comparison loop, with the branch test put
positively. -/
theorem cmpFrom_succ (a b : List Int) (i fuel : Nat) :
    cmpFrom a b i (fuel + 1) =
      if a.getD i (-1) = b.getD i (-1) then cmpFrom a b (i + 1) fuel
      else a.getD i (-1) - b.getD i (-1) := by
  simp only [cmpFrom, ne_eq, ite_not]

theorem cmpFrom_self (a : List Int) : ∀ fuel i, cmpFrom a a i fuel = 0 := by
  intro fuel
  induction fuel with
  | zero => intro i; rfl
  | succ f ih => intro i; rw [cmpFrom_succ, if_pos rfl]; exact ih (i + 1)

theorem cmpFrom_neg (a b : List Int) : ∀ fuel i, cmpFrom b a i fuel = -cmpFrom a b i fuel := by
  intro fuel
  induction fuel with
  | zero => intro i; rfl
  | succ f ih =>
    intro i
    by_cases h : a.getD i (-1) = b.getD i (-1)
    · rw [cmpFrom_succ, cmpFrom_succ, if_pos h, if_pos h.symm]
      exact ih (i + 1)
    · rw [cmpFrom_succ, cmpFrom_succ, if_neg h, if_neg (fun hh => h hh.symm)]
      omega

theorem cmpFrom_zero (a b : List Int) :
    ∀ fuel i, a.length ≤ i → b.length ≤ i → cmpFrom a b i fuel = 0 := by
  intro fuel
  induction fuel with
  | zero => intro i _ _; rfl
  | succ f ih =>
    intro i ha hb
    have ha' : a.getD i (-1) = -1 := List.getD_eq_default _ _ ha
    have hb' : b.getD i (-1) = -1 := List.getD_eq_default _ _ hb
    rw [cmpFrom_succ, if_pos (ha'.trans hb'.symm)]
    exact ih (i + 1) (ha.trans (Nat.le_succ i)) (hb.trans (Nat.le_succ i))

theorem cmpFrom_fuel (a b : List Int) :
    ∀ f1 f2 i, max a.length b.length ≤ i + f1 → max a.length b.length ≤ i + f2 →
      cmpFrom a b i f1 = cmpFrom a b i f2 := by
  intro f1
  induction f1 with
  | zero =>
    intro f2 i h1 _
    rw [cmpFrom_zero a b f2 i (by omega) (by omega)]
    rfl
  | succ f ih =>
    intro f2 i h1 h2
    match f2 with
    | 0 =>
      rw [cmpFrom_zero a b (f + 1) i (by omega) (by omega)]
      rfl
    | f2 + 1 =>
      rw [cmpFrom_succ, cmpFrom_succ]
      by_cases h : a.getD i (-1) = b.getD i (-1)
      · rw [if_pos h, if_pos h]
        exact ih f2 (i + 1) (by omega) (by omega)
      · rw [if_neg h, if_neg h]

theorem cmpFrom_ge_trans (a b c : List Int) :
    ∀ fuel i, 0 ≤ cmpFrom a b i fuel → 0 ≤ cmpFrom b c i fuel → 0 ≤ cmpFrom a c i fuel := by
  intro fuel
  induction fuel with
  | zero => intro i _ _; exact le_refl 0
  | succ f ih =>
    intro i hab hbc
    rw [cmpFrom_succ] at hab hbc
    rw [cmpFrom_succ]
    by_cases h1 : a.getD i (-1) = b.getD i (-1) <;>
      by_cases h2 : b.getD i (-1) = c.getD i (-1)
    · rw [if_pos h1] at hab
      rw [if_pos h2] at hbc
      rw [if_pos (h1.trans h2)]
      exact ih (i + 1) hab hbc
    · rw [if_pos h1] at hab
      rw [if_neg h2] at hbc
      rw [if_neg (by omega)]
      omega
    · rw [if_neg h1] at hab
      rw [if_pos h2] at hbc
      rw [if_neg (by omega)]
      omega
    · rw [if_neg h1] at hab
      rw [if_neg h2] at hbc
      rw [if_neg (by omega)]
      omega

theorem compareHands_self (a : HandEval) : compareHands a a = 0 := by
  unfold compareHands
  rw [if_neg (not_not_intro rfl)]
  exact cmpFrom_self a.tiebreaker _ 0

theorem compareHands_neg (a b : HandEval) : compareHands b a = -compareHands a b := by
  unfold compareHands
  by_cases h : a.rank = b.rank
  · rw [if_neg (not_not_intro h.symm), if_neg (not_not_intro h),
      Nat.max_comm b.tiebreaker.length a.tiebreaker.length,
      cmpFrom_neg a.tiebreaker b.tiebreaker]
  · rw [if_pos (fun hh => h hh.symm), if_pos h]
    omega

theorem compareHands_ge_trans {a b c : HandEval} (hab : 0 ≤ compareHands a b)
    (hbc : 0 ≤ compareHands b c) : 0 ≤ compareHands a c := by
  unfold compareHands at *
  by_cases h1 : a.rank = b.rank <;> by_cases h2 : b.rank = c.rank
  · rw [if_neg (not_not_intro h1)] at hab
    rw [if_neg (not_not_intro h2)] at hbc
    rw [if_neg (not_not_intro (h1.trans h2))]
    have hFab := cmpFrom_fuel a.tiebreaker b.tiebreaker
      (max a.tiebreaker.length b.tiebreaker.length)
      (a.tiebreaker.length + b.tiebreaker.length + c.tiebreaker.length) 0
      (by omega) (by omega)
    have hFbc := cmpFrom_fuel b.tiebreaker c.tiebreaker
      (max b.tiebreaker.length c.tiebreaker.length)
      (a.tiebreaker.length + b.tiebreaker.length + c.tiebreaker.length) 0
      (by omega) (by omega)
    have hFac := cmpFrom_fuel a.tiebreaker c.tiebreaker
      (max a.tiebreaker.length c.tiebreaker.length)
      (a.tiebreaker.length + b.tiebreaker.length + c.tiebreaker.length) 0
      (by omega) (by omega)
    rw [hFab] at hab
    rw [hFbc] at hbc
    rw [hFac]
    exact cmpFrom_ge_trans a.tiebreaker b.tiebreaker c.tiebreaker _ 0 hab hbc
  · rw [if_neg (not_not_intro h1)] at hab
    rw [if_pos h2] at hbc
    rw [if_pos (fun hh : a.rank = c.rank => h2 (h1 ▸ hh))]
    rw [h1]
    omega
  · rw [if_pos h1] at hab
    rw [if_neg (not_not_intro h2)] at hbc
    rw [if_pos (fun hh : a.rank = c.rank => h1 (h2 ▸ hh))]
    rw [← h2]
    omega
  · rw [if_pos h1] at hab
    rw [if_pos h2] at hbc
    rw [if_pos (by intro hh; omega)]
    omega

theorem compareHands_gt_of_gt_ge {a b c : HandEval} (h1 : 0 < compareHands a b)
    (h2 : 0 ≤ compareHands b c) : 0 < compareHands a c := by
  by_contra h
  push_neg at h
  have hca : 0 ≤ compareHands c a := by rw [compareHands_neg]; omega
  have hba : 0 ≤ compareHands b a := compareHands_ge_trans h2 hca
  rw [compareHands_neg] at hba
  omega

theorem compareHands_gt_of_ge_gt {a b c : HandEval} (h1 : 0 ≤ compareHands a b)
    (h2 : 0 < compareHands b c) : 0 < compareHands a c := by
  by_contra h
  push_neg at h
  have hca : 0 ≤ compareHands c a := by rw [compareHands_neg]; omega
  have hcb : 0 ≤ compareHands c b := compareHands_ge_trans hca h1
  rw [compareHands_neg] at hcb
  omega

theorem compareHands_gt_trans {a b c : HandEval} (h1 : 0 < compareHands a b)
    (h2 : 0 < compareHands b c) : 0 < compareHands a c :=
  compareHands_gt_of_gt_ge h1 h2.le

/-! ### The running-best fold of evaluate7 -/

/-- Folding the running-best update over a list from an already-seeded best b
yields a best that either is b (and b beats everything in the list) or is the
element at the first position whose evaluation strictly beats b and every
earlier element, and that is weakly greatest overall. -/
theorem foldl_step_spec (l : List HandEval) :
    ∀ b : HandEval, ∃ E, l.foldl step (some b) = some E ∧
      ((E = b ∧ ∀ x ∈ l, 0 ≤ compareHands b x) ∨
        (∃ j, j < l.length ∧ E = l.getD j default ∧ 0 < compareHands E b ∧
          (∀ i, i < j → 0 < compareHands E (l.getD i default)) ∧
          (∀ x ∈ l, 0 ≤ compareHands E x))) := by
  induction l with
  | nil =>
    intro b
    refine ⟨b, rfl, Or.inl ⟨rfl, ?_⟩⟩
    intro x hx
    exact absurd hx (List.not_mem_nil x)
  | cons h t ih =>
    intro b
    rw [List.foldl_cons]
    by_cases hb : 0 < compareHands h b
    · have hstep : step (some b) h = some h := by
        show (if compareHands h b > 0 then some h else some b) = some h
        rw [if_pos hb]
      rw [hstep]
      obtain ⟨E, hE, hcase⟩ := ih h
      refine ⟨E, hE, Or.inr ?_⟩
      rcases hcase with ⟨hEb, hall⟩ | ⟨j, hj, hEj, hEh, hpre, hall⟩
      · refine ⟨0, by simp, by rw [List.getD_cons_zero]; exact hEb,
          by rw [hEb]; exact hb, ?_, ?_⟩
        · intro i hi; omega
        · intro x hx
          rcases List.mem_cons.mp hx with rfl | hx
          · simp [hEb, compareHands_self]
          · rw [hEb]; exact hall x hx
      · refine ⟨j + 1, by simp only [List.length_cons]; omega,
          by rw [List.getD_cons_succ]; exact hEj,
          compareHands_gt_trans hEh hb, ?_, ?_⟩
        · intro i hi
          cases i with
          | zero => rw [List.getD_cons_zero]; exact hEh
          | succ i => rw [List.getD_cons_succ]; exact hpre i (by omega)
        · intro x hx
          rcases List.mem_cons.mp hx with rfl | hx
          · exact hEh.le
          · exact hall x hx
    · have hstep : step (some b) h = some b := by
        show (if compareHands h b > 0 then some h else some b) = some b
        rw [if_neg hb]
      rw [hstep]
      obtain ⟨E, hE, hcase⟩ := ih b
      refine ⟨E, hE, ?_⟩
      have hbh : 0 ≤ compareHands b h := by rw [compareHands_neg h b]; omega
      rcases hcase with ⟨hEb, hall⟩ | ⟨j, hj, hEj, hEb, hpre, hall⟩
      · refine Or.inl ⟨hEb, ?_⟩
        intro x hx
        rcases List.mem_cons.mp hx with rfl | hx
        · exact hbh
        · exact hall x hx
      · refine Or.inr ⟨j + 1, by simp only [List.length_cons]; omega,
          by rw [List.getD_cons_succ]; exact hEj, hEb, ?_, ?_⟩
        · intro i hi
          cases i with
          | zero => rw [List.getD_cons_zero]; exact compareHands_gt_of_gt_ge hEb hbh
          | succ i => rw [List.getD_cons_succ]; exact hpre i (by omega)
        · intro x hx
          rcases List.mem_cons.mp hx with rfl | hx
          · exact (compareHands_gt_of_gt_ge hEb hbh).le
          · exact hall x hx

/-- Folding from the null initial best over a nonempty list: the first
element seeds the running best, and the result is the element at the first
position that strictly beats every earlier element and weakly beats all. -/
theorem foldl_step_none_spec (l : List HandEval) (hne : l ≠ []) :
    ∃ E, l.foldl step none = some E ∧
      ∃ j, j < l.length ∧ E = l.getD j default ∧
        (∀ i, i < j → 0 < compareHands E (l.getD i default)) ∧
        (∀ x ∈ l, 0 ≤ compareHands E x) := by
  match l, hne with
  | h :: t, _ =>
    rw [List.foldl_cons]
    obtain ⟨E, hE, hcase⟩ := foldl_step_spec t h
    refine ⟨E, hE, ?_⟩
    rcases hcase with ⟨hEb, hall⟩ | ⟨j, hj, hEj, hEh, hpre, hall⟩
    · refine ⟨0, by simp, by rw [List.getD_cons_zero]; exact hEb, ?_, ?_⟩
      · intro i hi; omega
      · intro x hx
        rcases List.mem_cons.mp hx with rfl | hx
        · simp [hEb, compareHands_self]
        · rw [hEb]; exact hall x hx
    · refine ⟨j + 1, by simp only [List.length_cons]; omega,
        by rw [List.getD_cons_succ]; exact hEj, ?_, ?_⟩
      · intro i hi
        cases i with
        | zero => rw [List.getD_cons_zero]; exact hEh
        | succ i => rw [List.getD_cons_succ]; exact hpre i (by omega)
      · intro x hx
        rcases List.mem_cons.mp hx with rfl | hx
        · exact hEh.le
        · exact hall x hx

/-! ### The combination enumeration -/

/-- Every sublist is produced by the combination enumeration at its own
length. -/
theorem mem_combos_of_sublist {α : Type} :
    ∀ {S l : List α}, S.Sublist l → S ∈ combos S.length l := by
  intro S l hs
  induction hs with
  | slnil => exact List.mem_singleton.mpr rfl
  | @cons l₁ l₂ a hs ih =>
    cases l₁ with
    | nil => exact List.mem_singleton.mpr rfl
    | cons x xs =>
      rw [List.length_cons, combos]
      exact List.mem_append_right _ ih
  | @cons₂ l₁ l₂ a hs ih =>
    rw [List.length_cons, combos]
    exact List.mem_append_left _ (List.mem_map.mpr ⟨l₁, ih, rfl⟩)

theorem combos5_ne_nil {cards : List Card} (h : 5 ≤ cards.length) :
    combos 5 cards ≠ [] := by
  have hsub : (cards.take 5).Sublist cards := List.take_sublist 5 cards
  have hlen : (cards.take 5).length = 5 := by rw [List.length_take]; omega
  have hmem := mem_combos_of_sublist hsub
  rw [hlen] at hmem
  exact List.ne_nil_of_mem hmem

/-- If every token parses, no token is dropped by the parse-and-filter
step. -/
theorem filterMap_parseCard_length {tokens : List String}
    (h : ∀ t ∈ tokens, (parseCard t).isSome = true) :
    (tokens.filterMap parseCard).length = tokens.length := by
  induction tokens with
  | nil => rfl
  | cons t ts ih =>
    cases hp : parseCard t with
    | none =>
      have ht := h t (List.mem_cons_self t ts)
      rw [hp] at ht
      simp at ht
    | some c =>
      rw [List.filterMap_cons, hp, List.length_cons, List.length_cons]
      rw [ih fun x hx => h x (List.mem_cons_of_mem t hx)]

/-! ### Claim C1 -/

/-- Claim C1: for every list of 5 to 7 card tokens that all parse, evaluate7
returns an evaluation E that weakly beats (under compareHands) the
evaluation of every 5-element subset of the parsed cards; moreover E is the
evaluation of the combination at the first enumeration position that
strictly beats every combination enumerated before it (the first
combination seeds the running best, covered by position j = 0), and E
weakly beats every enumerated combination. -/
theorem evaluate7_selects_best (tokens : List String)
    (h5 : 5 ≤ tokens.length) (h7 : tokens.length ≤ 7)
    (hv : ∀ t ∈ tokens, (parseCard t).isSome = true) :
    ∃ E, evaluate7 tokens = some E ∧
      (∀ S, S.Sublist (tokens.filterMap parseCard) → S.length = 5 →
        0 ≤ compareHands E (evaluate5 S)) ∧
      (∃ j, j < ((combos 5 (tokens.filterMap parseCard)).map evaluate5).length ∧
        E = ((combos 5 (tokens.filterMap parseCard)).map evaluate5).getD j default ∧
        (∀ i, i < j → 0 < compareHands E
          (((combos 5 (tokens.filterMap parseCard)).map evaluate5).getD i default)) ∧
        (∀ i, i < ((combos 5 (tokens.filterMap parseCard)).map evaluate5).length →
          0 ≤ compareHands E
            (((combos 5 (tokens.filterMap parseCard)).map evaluate5).getD i default))) := by
  have hlen := filterMap_parseCard_length hv
  have hcl : 5 ≤ (tokens.filterMap parseCard).length := by omega
  have hne : (combos 5 (tokens.filterMap parseCard)).map evaluate5 ≠ [] := by
    intro hnil
    exact combos5_ne_nil hcl (List.map_eq_nil_iff.mp hnil)
  obtain ⟨E, hfold, j, hj, hEj, hpre, hall⟩ :=
    foldl_step_none_spec ((combos 5 (tokens.filterMap parseCard)).map evaluate5) hne
  have he7 : evaluate7 tokens = some E := by
    simp only [evaluate7]
    rw [if_neg (by omega)]
    exact hfold
  refine ⟨E, he7, ?_, j, hj, hEj, hpre, ?_⟩
  · intro S hsub hS
    have hmem : S ∈ combos 5 (tokens.filterMap parseCard) := by
      have hm := mem_combos_of_sublist hsub
      rwa [hS] at hm
    exact hall _ (List.mem_map_of_mem evaluate5 hmem)
  · intro i hi
    refine hall _ ?_
    rw [List.getD_eq_getElem _ default hi]
    exact List.getElem_mem hi

/-- Witness for C1: the theorem applied to a concrete all-valid 5-token
hand. -/
theorem evaluate7_selects_best_witness :
    ∃ E, evaluate7 ["As", "Kh", "Qd", "Jc", "Ts"] = some E ∧
      (∀ S, S.Sublist (["As", "Kh", "Qd", "Jc", "Ts"].filterMap parseCard) → S.length = 5 →
        0 ≤ compareHands E (evaluate5 S)) ∧
      (∃ j, j < ((combos 5 (["As", "Kh", "Qd", "Jc", "Ts"].filterMap parseCard)).map evaluate5).length ∧
        E = ((combos 5 (["As", "Kh", "Qd", "Jc", "Ts"].filterMap parseCard)).map evaluate5).getD j default ∧
        (∀ i, i < j → 0 < compareHands E
          (((combos 5 (["As", "Kh", "Qd", "Jc", "Ts"].filterMap parseCard)).map evaluate5).getD i default)) ∧
        (∀ i, i < ((combos 5 (["As", "Kh", "Qd", "Jc", "Ts"].filterMap parseCard)).map evaluate5).length →
          0 ≤ compareHands E
            (((combos 5 (["As", "Kh", "Qd", "Jc", "Ts"].filterMap parseCard)).map evaluate5).getD i default))) :=
  evaluate7_selects_best ["As", "Kh", "Qd", "Jc", "Ts"] (by decide) (by decide) (by decide)

/-! ### Sortedness of the rank list -/

instance : IsAntisymm Int (fun a b : Int => b ≤ a) := ⟨fun a b h1 h2 => le_antisymm h2 h1⟩

theorem ranksOf_sorted (cards : List Card) :
    (ranksOf cards).Sorted (fun a b : Int => b ≤ a) := by
  have hs : (sortCards cards).Sorted rankGe := List.sorted_insertionSort rankGe cards
  exact List.Pairwise.map _ (fun a b hab => by exact_mod_cast hab) hs

theorem ranksOf_length (cards : List Card) : (ranksOf cards).length = cards.length := by
  unfold ranksOf sortCards
  rw [List.length_map, List.length_insertionSort]

theorem ranksOf_perm (cards : List Card) :
    (ranksOf cards).Perm (cards.map fun c => (c.rank : Int)) :=
  (List.perm_insertionSort rankGe cards).map _

/-! ### Claim C2: straight detection -/

/-- The descending rank list is the wheel list exactly when the rank
multiset is the wheel multiset A 5 4 3 2. -/
theorem ranksOf_wheel_list (cards : List Card) :
    ranksOf cards = [12, 3, 2, 1, 0] ↔
      (↑(cards.map fun c => (c.rank : Int)) : Multiset Int) =
        ({12, 3, 2, 1, 0} : Multiset Int) := by
  have hperm := ranksOf_perm cards
  constructor
  · intro h
    have hc : (↑(ranksOf cards) : Multiset Int) = ↑(cards.map fun c => (c.rank : Int)) :=
      Multiset.coe_eq_coe.mpr hperm
    rw [← hc, h]
    rfl
  · intro h
    have hp2 : (ranksOf cards).Perm [12, 3, 2, 1, 0] := by
      apply Multiset.coe_eq_coe.mp
      rw [Multiset.coe_eq_coe.mpr hperm, h]
      rfl
    exact List.eq_of_perm_of_sorted hp2 (ranksOf_sorted cards) (by decide)

/-- The pointwise wheel test of lines 65-68 is the same as equality with the
wheel list, given five cards. -/
theorem wheel_pointwise_iff (cards : List Card) (hlen : cards.length = 5) :
    ((ranksOf cards).getD 0 0 = 12 ∧ (ranksOf cards).getD 1 0 = 3 ∧
      (ranksOf cards).getD 2 0 = 2 ∧ (ranksOf cards).getD 3 0 = 1 ∧
      (ranksOf cards).getD 4 0 = 0) ↔
      ranksOf cards = [12, 3, 2, 1, 0] := by
  have h5 : (ranksOf cards).length = 5 := by rw [ranksOf_length, hlen]
  constructor
  · rintro ⟨h0, h1, h2, h3, h4⟩
    apply List.ext_getElem (by rw [h5]; rfl)
    intro i hi1 hi2
    have hi : i < 5 := by rw [h5] at hi1; exact hi1
    interval_cases i
    · rw [← List.getD_eq_getElem (ranksOf cards) 0 hi1, h0]; rfl
    · rw [← List.getD_eq_getElem (ranksOf cards) 0 hi1, h1]; rfl
    · rw [← List.getD_eq_getElem (ranksOf cards) 0 hi1, h2]; rfl
    · rw [← List.getD_eq_getElem (ranksOf cards) 0 hi1, h3]; rfl
    · rw [← List.getD_eq_getElem (ranksOf cards) 0 hi1, h4]; rfl
  · intro h
    rw [h]
    decide

/-- In a descending-sorted length-5 rank list, position 0 holds the highest
and position 4 the lowest rank. -/
theorem sorted_desc_bounds (R : List Int) (h5 : R.length = 5)
    (hs : R.Sorted fun a b : Int => b ≤ a) :
    ∀ r ∈ R, R.getD 4 0 ≤ r ∧ r ≤ R.getD 0 0 := by
  match R, h5 with
  | [a, b, c, d, e], _ =>
    simp only [List.sorted_cons, List.mem_cons, List.not_mem_nil, or_false,
      forall_eq_or_imp, forall_eq, List.sorted_nil, and_true] at hs
    intro r hr
    simp only [List.mem_cons, List.not_mem_nil, or_false] at hr
    simp only [List.getD_cons_zero, List.getD_cons_succ]
    rcases hr with rfl | rfl | rfl | rfl | rfl <;> omega

/-- Claim C2: classify detects a straight only with exactly 5 distinct
ranks, in exactly two shapes: five consecutive ranks (position 0 minus
position 4 of the descending rank list equals 4, and these positions hold
the highest resp. lowest rank), with straight-high the highest rank; or the
wheel rank multiset A 5 4 3 2, with straight-high 3; concretely, the wheel
hand classifies as Straight with tiebreaker [3]. -/
theorem straight_detection (cards : List Card) (hlen : cards.length = 5) :
    ((straightInfo (ranksOf cards) (ranksOf cards).dedup.length).1 = true ↔
      ((ranksOf cards).dedup.length = 5 ∧
        ((ranksOf cards).getD 0 0 - (ranksOf cards).getD 4 0 = 4 ∨
          (↑(cards.map fun c => (c.rank : Int)) : Multiset Int) =
            ({12, 3, 2, 1, 0} : Multiset Int)))) ∧
    ((↑(cards.map fun c => (c.rank : Int)) : Multiset Int) =
        ({12, 3, 2, 1, 0} : Multiset Int) →
      (straightInfo (ranksOf cards) (ranksOf cards).dedup.length).2 = 3) ∧
    ((straightInfo (ranksOf cards) (ranksOf cards).dedup.length).1 = true →
      (↑(cards.map fun c => (c.rank : Int)) : Multiset Int) ≠
        ({12, 3, 2, 1, 0} : Multiset Int) →
      (straightInfo (ranksOf cards) (ranksOf cards).dedup.length).2 =
        (ranksOf cards).getD 0 0) ∧
    (∀ r ∈ ranksOf cards, (ranksOf cards).getD 4 0 ≤ r ∧ r ≤ (ranksOf cards).getD 0 0) ∧
    evaluate5 (["5s", "4h", "3d", "2c", "As"].filterMap parseCard) = ⟨4, [3], "Straight"⟩ := by
  have hmsiff := (wheel_pointwise_iff cards hlen).trans (ranksOf_wheel_list cards)
  have hbounds := sorted_desc_bounds (ranksOf cards) (by rw [ranksOf_length, hlen])
    (ranksOf_sorted cards)
  simp only [straightInfo]
  by_cases hu : (ranksOf cards).dedup.length = 5
  · rw [if_pos hu]
    by_cases hw : (ranksOf cards).getD 0 0 = 12 ∧ (ranksOf cards).getD 1 0 = 3 ∧
        (ranksOf cards).getD 2 0 = 2 ∧ (ranksOf cards).getD 3 0 = 1 ∧
        (ranksOf cards).getD 4 0 = 0
    · rw [if_pos hw]
      have hms : (↑(cards.map fun c => (c.rank : Int)) : Multiset Int) =
          ({12, 3, 2, 1, 0} : Multiset Int) := hmsiff.mp hw
      refine ⟨iff_of_true rfl ⟨hu, Or.inr hms⟩, fun _ => rfl,
        fun _ hn => absurd hms hn, hbounds, by decide⟩
    · rw [if_neg hw]
      by_cases hc : (ranksOf cards).getD 0 0 - (ranksOf cards).getD 4 0 = 4
      · rw [if_pos hc]
        refine ⟨iff_of_true rfl ⟨hu, Or.inl hc⟩,
          fun hm => absurd (hmsiff.mpr hm) hw, fun _ _ => rfl, hbounds, by decide⟩
      · rw [if_neg hc]
        refine ⟨iff_of_false (by simp) ?_, fun hm => absurd (hmsiff.mpr hm) hw,
          fun h => absurd h (by simp), hbounds, by decide⟩
        rintro ⟨_, hor⟩
        exact hor.elim hc fun hm => hw (hmsiff.mpr hm)
  · rw [if_neg hu]
    refine ⟨iff_of_false (by simp) fun hh => hu hh.1, ?_,
      fun h => absurd h (by simp), hbounds, by decide⟩
    intro hm
    have hl := (ranksOf_wheel_list cards).mpr hm
    rw [hl] at hu
    exact absurd (by decide) hu

/-- Witness for C2 at the concrete wheel hand. -/
theorem straight_detection_witness :
    ((straightInfo (ranksOf (["5s", "4h", "3d", "2c", "As"].filterMap parseCard))
        (ranksOf (["5s", "4h", "3d", "2c", "As"].filterMap parseCard)).dedup.length).1 = true ↔
      ((ranksOf (["5s", "4h", "3d", "2c", "As"].filterMap parseCard)).dedup.length = 5 ∧
        ((ranksOf (["5s", "4h", "3d", "2c", "As"].filterMap parseCard)).getD 0 0 -
            (ranksOf (["5s", "4h", "3d", "2c", "As"].filterMap parseCard)).getD 4 0 = 4 ∨
          (↑((["5s", "4h", "3d", "2c", "As"].filterMap parseCard).map
              fun c => (c.rank : Int)) : Multiset Int) =
            ({12, 3, 2, 1, 0} : Multiset Int)))) ∧
    ((↑((["5s", "4h", "3d", "2c", "As"].filterMap parseCard).map
          fun c => (c.rank : Int)) : Multiset Int) =
        ({12, 3, 2, 1, 0} : Multiset Int) →
      (straightInfo (ranksOf (["5s", "4h", "3d", "2c", "As"].filterMap parseCard))
        (ranksOf (["5s", "4h", "3d", "2c", "As"].filterMap parseCard)).dedup.length).2 = 3) ∧
    ((straightInfo (ranksOf (["5s", "4h", "3d", "2c", "As"].filterMap parseCard))
        (ranksOf (["5s", "4h", "3d", "2c", "As"].filterMap parseCard)).dedup.length).1 = true →
      (↑((["5s", "4h", "3d", "2c", "As"].filterMap parseCard).map
          fun c => (c.rank : Int)) : Multiset Int) ≠
        ({12, 3, 2, 1, 0} : Multiset Int) →
      (straightInfo (ranksOf (["5s", "4h", "3d", "2c", "As"].filterMap parseCard))
        (ranksOf (["5s", "4h", "3d", "2c", "As"].filterMap parseCard)).dedup.length).2 =
        (ranksOf (["5s", "4h", "3d", "2c", "As"].filterMap parseCard)).getD 0 0) ∧
    (∀ r ∈ ranksOf (["5s", "4h", "3d", "2c", "As"].filterMap parseCard),
      (ranksOf (["5s", "4h", "3d", "2c", "As"].filterMap parseCard)).getD 4 0 ≤ r ∧
        r ≤ (ranksOf (["5s", "4h", "3d", "2c", "As"].filterMap parseCard)).getD 0 0) ∧
    evaluate5 (["5s", "4h", "3d", "2c", "As"].filterMap parseCard) = ⟨4, [3], "Straight"⟩ :=
  straight_detection (["5s", "4h", "3d", "2c", "As"].filterMap parseCard) (by decide)

/-! ### Claim C5: classification is total over the 9 categories and
permutation invariant -/

theorem ranksOf_perm_eq {cards cards' : List Card} (h : cards.Perm cards') :
    ranksOf cards = ranksOf cards' := by
  apply List.eq_of_perm_of_sorted _ (ranksOf_sorted cards) (ranksOf_sorted cards')
  exact (ranksOf_perm cards).trans ((h.map _).trans (ranksOf_perm cards').symm)

theorem flushOf_perm_eq {cards cards' : List Card} (h : cards.Perm cards') :
    flushOf cards = flushOf cards' := by
  unfold flushOf suitsOf
  have hp : ((sortCards cards).map fun c => c.suit).Perm
      ((sortCards cards').map fun c => c.suit) :=
    ((List.perm_insertionSort rankGe cards).trans
      (h.trans (List.perm_insertionSort rankGe cards').symm)).map _
  rw [hp.dedup.length_eq]

theorem evaluate5Core_rank_range (ranks : List Int) (isFlush : Bool) :
    0 ≤ (evaluate5Core ranks isFlush).rank ∧ (evaluate5Core ranks isFlush).rank ≤ 8 := by
  simp only [evaluate5Core]
  split_ifs <;> dsimp only <;> omega

/-- Claim C5: over five cards, classification always lands in the 9
categories (0 through 8), and permuting the input cards leaves the entire
evaluation (category, tiebreaker sequence and display name) unchanged. -/
theorem classify_perm_invariant (cards cards' : List Card)
    (_hlen : cards.length = 5) (hperm : cards.Perm cards') :
    evaluate5 cards = evaluate5 cards' ∧
    0 ≤ (evaluate5 cards).rank ∧ (evaluate5 cards).rank ≤ 8 := by
  constructor
  · unfold evaluate5
    rw [ranksOf_perm_eq hperm, flushOf_perm_eq hperm]
  · exact evaluate5Core_rank_range _ _

/-- Witness for C5 at a concrete permuted pair of hands. -/
theorem classify_perm_invariant_witness :
    evaluate5 (["Ah", "Ad", "Ac", "2h", "3h"].filterMap parseCard) =
      evaluate5 (["3h", "2h", "Ac", "Ad", "Ah"].filterMap parseCard) ∧
    0 ≤ (evaluate5 (["Ah", "Ad", "Ac", "2h", "3h"].filterMap parseCard)).rank ∧
    (evaluate5 (["Ah", "Ad", "Ac", "2h", "3h"].filterMap parseCard)).rank ≤ 8 :=
  classify_perm_invariant _ _ (by decide) (by decide)

/-! ### Claim C7: malformed inputs degrade to absent, never to a crash -/

/-- Claim C7: parseCard yields absent, not an error, on the empty string,
on "Xx", on a missing (null) argument, on any string shorter than 2
characters, on any unrecognized rank slice and on any unrecognized suit
character; and evaluate7 yields absent whenever fewer than 5 tokens parse,
in particular on a 3-token hand. -/
theorem malformed_inputs :
    parseCard "" = none ∧ parseCard "Xx" = none ∧ parseCardOpt none = none ∧
    (∀ t : String, t.toList.length < 2 → parseCard t = none) ∧
    (∀ t : String, rankIdx (if t.toList.length = 3 then t.toList.take 2
        else t.toList.take (t.toList.length - 1)) = none → parseCard t = none) ∧
    (∀ t : String, indexIn SUITSC ((t.toList.getLast?.getD ' ').toLower) = none →
      parseCard t = none) ∧
    (∀ tokens : List String, (tokens.filterMap parseCard).length < 5 →
      evaluate7 tokens = none) ∧
    evaluate7 ["As", "Kh", "Qd"] = none := by
  refine ⟨by decide, by decide, rfl, ?_, ?_, ?_, ?_, by decide⟩
  · intro t h
    simp only [parseCard]
    rw [if_pos h]
  · intro t h
    simp only [parseCard]
    by_cases hlen : t.toList.length < 2
    · rw [if_pos hlen]
    · rw [if_neg hlen, h]
  · intro t h
    simp only [parseCard]
    by_cases hlen : t.toList.length < 2
    · rw [if_pos hlen]
    · rw [if_neg hlen, h]
      cases hr : rankIdx (if t.toList.length = 3 then t.toList.take 2
        else t.toList.take (t.toList.length - 1)) <;> rfl
  · intro tokens h
    simp only [evaluate7]
    rw [if_pos h]

/-- Witness for C7: the universally quantified conjuncts applied at
concrete malformed inputs. -/
theorem malformed_inputs_witness :
    parseCard "A" = none ∧ evaluate7 ["As", "Kh", "Qd", "Jc"] = none :=
  ⟨malformed_inputs.2.2.2.1 "A" (by decide),
    malformed_inputs.2.2.2.2.2.2.1 ["As", "Kh", "Qd", "Jc"] (by decide)⟩

/-! ### Claim C3: straight flush precedence -/

/-- Claim C3: a hand that is both a flush and a straight classifies as
StraightFlush (category 8, so never Flush or Straight) with tiebreaker
[straight-high], named Royal Flush exactly when the straight-high is 12;
concretely the ace-high spade straight flush is a Royal Flush with
tiebreaker [12]. -/
theorem straight_flush_precedence :
    (∀ cards : List Card, flushOf cards = true →
      (straightInfo (ranksOf cards) (ranksOf cards).dedup.length).1 = true →
      evaluate5 cards =
        ⟨8, [(straightInfo (ranksOf cards) (ranksOf cards).dedup.length).2],
          if (straightInfo (ranksOf cards) (ranksOf cards).dedup.length).2 = 12
          then "Royal Flush" else "Straight Flush"⟩) ∧
    (∀ cards : List Card, flushOf cards = true →
      (straightInfo (ranksOf cards) (ranksOf cards).dedup.length).1 = true →
      ((evaluate5 cards).name = "Royal Flush" ↔
        (straightInfo (ranksOf cards) (ranksOf cards).dedup.length).2 = 12)) ∧
    evaluate5 (["As", "Ks", "Qs", "Js", "Ts"].filterMap parseCard) =
      ⟨8, [12], "Royal Flush"⟩ := by
  have hmain : ∀ cards : List Card, flushOf cards = true →
      (straightInfo (ranksOf cards) (ranksOf cards).dedup.length).1 = true →
      evaluate5 cards =
        ⟨8, [(straightInfo (ranksOf cards) (ranksOf cards).dedup.length).2],
          if (straightInfo (ranksOf cards) (ranksOf cards).dedup.length).2 = 12
          then "Royal Flush" else "Straight Flush"⟩ := by
    intro cards hf hs
    simp only [evaluate5, evaluate5Core]
    rw [if_pos ⟨hf, hs⟩]
  refine ⟨hmain, ?_, by decide⟩
  intro cards hf hs
  rw [hmain cards hf hs]
  by_cases h12 : (straightInfo (ranksOf cards) (ranksOf cards).dedup.length).2 = 12
  · rw [if_pos h12]
    exact iff_of_true rfl h12
  · rw [if_neg h12]
    have hne : ¬("Straight Flush" = "Royal Flush") := by decide
    exact iff_of_false (fun h => hne h) h12

/-- Witness for C3 at a concrete non-royal straight flush. -/
theorem straight_flush_precedence_witness :
    evaluate5 (["9h", "8h", "7h", "6h", "5h"].filterMap parseCard) =
      ⟨8, [(straightInfo (ranksOf (["9h", "8h", "7h", "6h", "5h"].filterMap parseCard))
            (ranksOf (["9h", "8h", "7h", "6h", "5h"].filterMap parseCard)).dedup.length).2],
        if (straightInfo (ranksOf (["9h", "8h", "7h", "6h", "5h"].filterMap parseCard))
            (ranksOf (["9h", "8h", "7h", "6h", "5h"].filterMap parseCard)).dedup.length).2 = 12
        then "Royal Flush" else "Straight Flush"⟩ :=
  straight_flush_precedence.1 (["9h", "8h", "7h", "6h", "5h"].filterMap parseCard)
    (by decide) (by decide)

/-! ### Claim C6: codec round trip -/

/-- Modelled from the spec wording of the round-trip property: normalize
uppercases the rank characters and lowercases the suit (last) character of
a token.  Only tokens that parse (which have exactly two characters) are
constrained by the claim. -/
def normalizeToken (t : String) : String :=
  String.mk ((t.toList.dropLast.map Char.toUpper) ++
    (t.toList.getLast?.map Char.toLower).toList)

/-- Inversion for table lookup: a successful lookup returns an in-range
index whose table entry is the looked-up character. -/
theorem indexIn_some {l : List Char} {c : Char} :
    ∀ {i : Nat}, indexIn l c = some i → i < l.length ∧ l.getD i ' ' = c := by
  induction l with
  | nil => intro i h; simp [indexIn] at h
  | cons x xs ih =>
    intro i h
    by_cases hx : x = c
    · rw [indexIn, if_pos hx] at h
      cases h
      exact ⟨by simp, by simpa using hx⟩
    · rw [indexIn, if_neg hx] at h
      cases hxs : indexIn xs c with
      | none => rw [hxs] at h; simp at h
      | some j =>
        rw [hxs] at h
        simp only [Option.map_some'] at h
        cases h
        obtain ⟨hj, hg⟩ := ih hxs
        refine ⟨by simpa using hj, ?_⟩
        rw [List.getD_cons_succ]
        exact hg

/-- Inversion for the RANK_IDX lookup: it only succeeds on a
single-character slice. -/
theorem rankIdx_some {cs : List Char} {r : Nat} (h : rankIdx cs = some r) :
    ∃ ch, cs = [ch] ∧ indexIn RANKSC ch = some r := by
  cases cs with
  | nil => simp [rankIdx] at h
  | cons c1 tail =>
    cases tail with
    | nil => exact ⟨c1, rfl, h⟩
    | cons c2 rest => simp [rankIdx] at h

/-- Inversion for parseCard: a successful parse means the token has exactly
two characters, the first is a rank table entry at the card's rank index,
and the lower-cased second is a suit table entry at the card's suit
index. -/
theorem parseCard_inversion {t : String} {c : Card} (h : parseCard t = some c) :
    ∃ a b, t.toList = [a, b] ∧ indexIn RANKSC a = some c.rank ∧
      indexIn SUITSC b.toLower = some c.suit := by
  simp only [parseCard] at h
  by_cases hlen : t.toList.length < 2
  · rw [if_pos hlen] at h
    exact absurd h (by simp)
  · rw [if_neg hlen] at h
    cases hr : rankIdx (if t.toList.length = 3 then t.toList.take 2
        else t.toList.take (t.toList.length - 1)) with
    | none => rw [hr] at h; exact absurd h (by simp)
    | some r =>
      cases hs : indexIn SUITSC ((t.toList.getLast?.getD ' ').toLower) with
      | none => rw [hr, hs] at h; exact absurd h (by simp)
      | some s =>
        rw [hr, hs] at h
        simp only [Option.some.injEq] at h
        obtain ⟨a, ha, hra⟩ := rankIdx_some hr
        by_cases h3 : t.toList.length = 3
        · rw [if_pos h3] at ha
          have hlen2 := congrArg List.length ha
          rw [List.length_take, h3] at hlen2
          simp at hlen2
        · rw [if_neg h3] at ha
          have hlen1 := congrArg List.length ha
          rw [List.length_take] at hlen1
          have hlen2 : t.toList.length = 2 := by
            simp only [List.length_singleton] at hlen1
            omega
          obtain ⟨x, y, hcs⟩ := List.length_eq_two.mp hlen2
          rw [hcs] at ha hs
          simp only [List.length_cons, List.length_nil] at ha
          simp only [List.take_succ_cons, List.take_zero, List.cons.injEq,
            and_true] at ha
          simp only [List.getLast?_cons_cons, List.getLast?_singleton,
            Option.getD_some] at hs
          refine ⟨a, y, by rw [hcs, ha], ?_, ?_⟩
          · rw [hra, ← h]
          · rw [hs, ← h]

/-- Claim C6: the codec round-trips: parsing the printed form of any valid
card gives the card back, and printing a parsed token gives the normalized
token (canonical rank character, lower-cased suit character). -/
theorem codec_round_trip :
    (∀ r : Nat, r < 13 → ∀ s : Nat, s < 4 →
      parseCard (cardToString ⟨r, s⟩) = some ⟨r, s⟩) ∧
    (∀ t : String, ∀ c : Card, parseCard t = some c →
      cardToString c = normalizeToken t) := by
  constructor
  · decide
  · intro t c h
    obtain ⟨a, b, hab, hra, hsb⟩ := parseCard_inversion h
    obtain ⟨hr13, hra'⟩ := indexIn_some hra
    obtain ⟨hs4, hsb'⟩ := indexIn_some hsb
    have hamem : a ∈ RANKSC := by
      rw [← hra', List.getD_eq_getElem RANKSC ' ' hr13]
      exact List.getElem_mem hr13
    have haup : a.toUpper = a :=
      (by decide : ∀ ch ∈ RANKSC, ch.toUpper = ch) a hamem
    have hrs : RANKS.getD c.rank "?" = String.mk [a] := by
      rw [← hra']
      exact (by decide : ∀ r : Nat, r < 13 →
        RANKS.getD r "?" = String.mk [RANKSC.getD r ' ']) c.rank hr13
    have hss : SUITS.getD c.suit "?" = String.mk [b.toLower] := by
      rw [← hsb']
      exact (by decide : ∀ s : Nat, s < 4 →
        SUITS.getD s "?" = String.mk [SUITSC.getD s ' ']) c.suit hs4
    unfold cardToString normalizeToken
    rw [hab, hrs, hss]
    simp only [List.dropLast_cons₂, List.dropLast_single, List.map_cons,
      List.map_nil, List.getLast?_cons_cons, List.getLast?_singleton,
      Option.map_some', Option.toList_some, haup]
    rfl

/-- Witness for C6: both directions at a concrete card and token. -/
theorem codec_round_trip_witness :
    parseCard (cardToString ⟨12, 0⟩) = some ⟨12, 0⟩ ∧
      cardToString ⟨11, 1⟩ = normalizeToken "KH" :=
  ⟨codec_round_trip.1 12 (by decide) 0 (by decide),
    codec_round_trip.2 "KH" ⟨11, 1⟩ (by decide)⟩

/-! ### Claim C4: the comparator is a total order -/

/-- Claim C4: compareHands is reflexively zero, exactly antisymmetric
(compare(b, a) is the negation of compare(a, b), so in particular the signs
are opposite), transitive in the strict sense, decided by the category
difference when the categories differ, and otherwise by the -1-padded
lexicographic tiebreaker loop. -/
theorem compareHands_total_order :
    (∀ x : HandEval, compareHands x x = 0) ∧
    (∀ a b : HandEval, compareHands b a = -compareHands a b) ∧
    (∀ a b c : HandEval,
      0 < compareHands a b → 0 < compareHands b c → 0 < compareHands a c) ∧
    (∀ a b c : HandEval,
      0 ≤ compareHands a b → 0 ≤ compareHands b c → 0 ≤ compareHands a c) ∧
    (∀ a b : HandEval, a.rank ≠ b.rank → compareHands a b = a.rank - b.rank) ∧
    (∀ a b : HandEval, a.rank = b.rank →
      compareHands a b = cmpFrom a.tiebreaker b.tiebreaker 0
        (max a.tiebreaker.length b.tiebreaker.length)) := by
  refine ⟨compareHands_self, compareHands_neg,
    fun a b c h1 h2 => compareHands_gt_trans h1 h2,
    fun a b c h1 h2 => compareHands_ge_trans h1 h2, ?_, ?_⟩
  · intro a b h
    unfold compareHands
    rw [if_pos h]
  · intro a b h
    unfold compareHands
    rw [if_neg (not_not_intro h)]

/-- Witness for C4: strict transitivity applied at three concrete
evaluations. -/
theorem compareHands_total_order_witness :
    0 < compareHands ⟨2, [5, 0, 7], "Two Pair"⟩ ⟨0, [12, 11, 9, 7, 4], "High Card"⟩ :=
  compareHands_total_order.2.2.1 ⟨2, [5, 0, 7], "Two Pair"⟩ ⟨1, [3, 12, 7, 2], "One Pair"⟩
    ⟨0, [12, 11, 9, 7, 4], "High Card"⟩ (by decide) (by decide)

/-! ### Claim C8: the win probability estimator -/

/-- Claim C8: winProbability returns 0.5 with fewer than two hole tokens;
with a non-empty board it maps the selected category through the fixed
9-entry table (0.5 when selection fails), discounts by 0.88 to the power
max(0, numOpponents - 1), and floors at 0.01; numOpponents defaults to 1;
with an empty board the equity is preFlopStrength, and concretely the
pre-flop call with one opponent returns exactly preFlopStrength. -/
theorem winProbability_spec :
    (∀ hole board : List String, ∀ n : JSNum, hole.length < 2 →
      winProbability hole board n = 1 / 2) ∧
    (∀ hole board : List String, ∀ m : Int, ∀ res : HandEval, 2 ≤ hole.length →
      board ≠ [] → evaluate7 (hole ++ board) = some res →
      winProbability hole board (.int m) =
        max (1 / 100) (tableAt res.rank * (22 / 25 : ℚ) ^ (max 0 (m - 1)).toNat)) ∧
    (∀ hole board : List String, ∀ m : Int, 2 ≤ hole.length → board ≠ [] →
      evaluate7 (hole ++ board) = none →
      winProbability hole board (.int m) =
        max (1 / 100) ((1 / 2) * (22 / 25 : ℚ) ^ (max 0 (m - 1)).toNat)) ∧
    (∀ hole board : List String,
      winProbability hole board .undef = winProbability hole board (.int 1)) ∧
    (∀ hole : List String, ∀ m : Int, 2 ≤ hole.length →
      winProbability hole [] (.int m) =
        max (1 / 100) (preFlopStrength hole * (22 / 25 : ℚ) ^ (max 0 (m - 1)).toNat)) ∧
    TABLE = [0.10, 0.38, 0.55, 0.68, 0.72, 0.77, 0.86, 0.93, 0.97] ∧
    winProbability ["2s", "7h"] [] (.int 1) = preFlopStrength ["2s", "7h"] := by
  have hpf : preFlopStrength ["2s", "7h"] = 1 / 20 := by
    have h2 : ["2s", "7h"].filterMap parseCard = [⟨0, 0⟩, ⟨5, 1⟩] := by decide
    simp only [preFlopStrength, h2]
    norm_num [max_def, min_def]
  refine ⟨?_, ?_, ?_, fun hole board => rfl, ?_, by norm_num [TABLE], ?_⟩
  · intro hole board n h
    simp only [winProbability]
    rw [if_pos h]
  · intro hole board m res hh hb hres
    simp only [winProbability]
    rw [if_neg (by omega), if_neg (by simpa [List.length_eq_zero] using hb), hres]
  · intro hole board m hh hb hres
    simp only [winProbability]
    rw [if_neg (by omega), if_neg (by simpa [List.length_eq_zero] using hb), hres]
  · intro hole m hh
    simp only [winProbability]
    rw [if_neg (by omega), if_pos (show ([] : List String).length = 0 from rfl)]
  · simp only [winProbability]
    rw [if_neg (by norm_num), if_pos (show ([] : List String).length = 0 from rfl), hpf]
    norm_num [max_def]

/-- Witness for C8: the post-flop branch applied at the Broadway straight
board with 3 opponents. -/
theorem winProbability_spec_witness :
    winProbability ["As", "Kh"] ["Qs", "Jd", "Ts"] (.int 3) =
      max (1 / 100) (tableAt (4 : Int) * (22 / 25 : ℚ) ^ (max 0 ((3 : Int) - 1)).toNat) :=
  winProbability_spec.2.1 ["As", "Kh"] ["Qs", "Jd", "Ts"] 3 ⟨4, [12], "Straight"⟩
    (by decide) (by decide) (by decide)

/-! ### Claim C9: pre-flop strength of pocket aces -/

/-- Counterexample to C9 as stated: preFlopStrength(["As","Ah"]) is
49/50 = 0.98, not 1.0, because the source clamps score/20 to at most
0.98. -/
theorem preFlopStrength_AA_ne_one :
    preFlopStrength ["As", "Ah"] ≠ 1 ∧ preFlopStrength ["As", "Ah"] = 49 / 50 := by
  have h : preFlopStrength ["As", "Ah"] = 49 / 50 := by
    have h2 : ["As", "Ah"].filterMap parseCard = [⟨12, 0⟩, ⟨12, 1⟩] := by decide
    simp only [preFlopStrength, h2]
    norm_num [max_def, min_def]
  exact ⟨by rw [h]; norm_num, h⟩

/-- C9 amended: a pocket pair scores 2x rank, overridden for the four top
pairs (AA 20, KK 16, QQ 14, JJ 12) and floored at 5; the final value is the
score divided by 20 and clamped to [0.05, 0.98], so pocket aces yield
min(0.98, 20/20) = 0.98, not 1.0. -/
theorem preFlopStrength_pair_spec :
    (∀ t1 t2 : String, ∀ c1 c2 : Card, parseCard t1 = some c1 →
      parseCard t2 = some c2 → c1.rank = c2.rank →
      preFlopStrength [t1, t2] =
        max (1 / 20) (min (49 / 50)
          ((max 5 (if c2.rank = 12 then 20 else if c2.rank = 11 then 16
            else if c2.rank = 10 then 14 else if c2.rank = 9 then 12
            else 2 * (c2.rank : ℚ))) / 20))) ∧
    preFlopStrength ["As", "Ah"] = 49 / 50 := by
  refine ⟨?_, ?_⟩
  case refine_2 =>
    have h2 : ["As", "Ah"].filterMap parseCard = [⟨12, 0⟩, ⟨12, 1⟩] := by decide
    simp only [preFlopStrength, h2]
    norm_num [max_def, min_def]
  intro t1 t2 c1 c2 h1 h2 hr
  simp only [preFlopStrength]
  rw [if_neg (by simp)]
  rw [List.filterMap_cons, h1, List.filterMap_cons, h2, List.filterMap_nil]
  simp only [hr, max_self, min_self, if_pos rfl]
  simp

/-- Witness for the amended C9 at a concrete pocket pair of kings. -/
theorem preFlopStrength_pair_spec_witness :
    preFlopStrength ["Ks", "Kh"] =
      max (1 / 20) (min (49 / 50)
        ((max 5 (if (11 : Nat) = 12 then 20 else if (11 : Nat) = 11 then 16
          else if (11 : Nat) = 10 then 14 else if (11 : Nat) = 9 then 12
          else 2 * ((11 : Nat) : ℚ))) / 20)) :=
  preFlopStrength_pair_spec.1 "Ks" "Kh" ⟨11, 0⟩ ⟨11, 1⟩ (by decide) (by decide) rfl

end Poker

namespace PokerInject

/-! ### Claim C10: the Node module and the browser IIFE agree -/

/-- Mapping the pair-to-record conversion commutes with one ordered
insertion, because the two group comparators test exactly the same
fields. -/
theorem map_orderedInsert (x : Int × Nat) (l : List (Int × Nat)) :
    (List.orderedInsert Poker.pairLe x l).map
        (fun p => Poker.RankGroup.mk p.1 p.2) =
      List.orderedInsert groupLe (Poker.RankGroup.mk x.1 x.2)
        (l.map fun p => Poker.RankGroup.mk p.1 p.2) := by
  induction l with
  | nil => rfl
  | cons b l ih =>
    by_cases h : Poker.pairLe x b
    · rw [List.orderedInsert, if_pos h, List.map_cons, List.map_cons,
        List.orderedInsert, if_pos (show groupLe ⟨x.1, x.2⟩ ⟨b.1, b.2⟩ from h)]
    · rw [List.orderedInsert, if_neg h, List.map_cons, List.map_cons,
        List.orderedInsert,
        if_neg (show ¬groupLe ⟨x.1, x.2⟩ ⟨b.1, b.2⟩ from h), ih]

/-- Sorting pairs and then building records is the same as building records
and then sorting them. -/
theorem map_insertionSort (l : List (Int × Nat)) :
    (l.insertionSort Poker.pairLe).map (fun p => Poker.RankGroup.mk p.1 p.2) =
      (l.map fun p => Poker.RankGroup.mk p.1 p.2).insertionSort groupLe := by
  induction l with
  | nil => rfl
  | cons a l ih =>
    rw [List.insertionSort, List.map_cons, List.insertionSort, ← ih,
      map_orderedInsert]

/-- The Object.keys-then-sort groups of the IIFE equal the
Object.entries-sort-then-map groups of the module. -/
theorem groupsOf_eq (ranks : List Int) : groupsOf ranks = Poker.groupsOf ranks := by
  unfold groupsOf Poker.groupsOf
  rw [map_insertionSort, List.map_map]
  rfl

theorem evaluate5_eq (cards : List Poker.Card) :
    evaluate5 cards = Poker.evaluate5 cards := by
  simp only [evaluate5, Poker.evaluate5, Poker.evaluate5Core, groupsOf_eq]

theorem evaluate7_eq (tokens : List String) :
    evaluate7 tokens = Poker.evaluate7 tokens := by
  simp only [evaluate7, Poker.evaluate7]
  have hp : tokens.filterMap parseCard = tokens.filterMap Poker.parseCard := rfl
  have he : evaluate5 = Poker.evaluate5 := funext evaluate5_eq
  have hs : step = Poker.step := rfl
  rw [hp, he, hs]

theorem preFlopStrength_eq (holeCards : List String) :
    preFlopStrength holeCards = Poker.preFlopStrength holeCards := by
  simp only [preFlopStrength, Poker.preFlopStrength]
  by_cases h : holeCards.length < 2
  · rw [if_pos h, if_pos h]
  · rw [if_neg h, if_neg h]
    have hp : holeCards.filterMap parseCard = holeCards.filterMap Poker.parseCard := rfl
    rw [hp]
    cases hfm : holeCards.filterMap Poker.parseCard with
    | nil => rfl
    | cons c1 rest =>
      cases rest with
      | nil => rfl
      | cons c2 rest2 =>
        rw [if_neg (by simp)]
        rfl

theorem winProbability_eq (holeCards boardCards : List String) (n : Poker.JSNum) :
    winProbability holeCards boardCards n =
      Poker.winProbability holeCards boardCards n := by
  simp only [winProbability, Poker.winProbability]
  by_cases h : holeCards.length < 2
  · rw [if_pos h, if_pos h]
  · rw [if_neg h, if_neg h]
    have heq : (if boardCards.length = 0 then preFlopStrength holeCards
        else match evaluate7 (holeCards ++ boardCards) with
          | some result => tableAt result.rank
          | none => (1 : ℚ) / 2) =
        (if boardCards.length = 0 then Poker.preFlopStrength holeCards
        else match Poker.evaluate7 (holeCards ++ boardCards) with
          | some result => Poker.tableAt result.rank
          | none => (1 : ℚ) / 2) := by
      by_cases hb : boardCards.length = 0
      · rw [if_pos hb, if_pos hb, preFlopStrength_eq]
      · rw [if_neg hb, if_neg hb, evaluate7_eq]
        cases Poker.evaluate7 (holeCards ++ boardCards) with
        | none => rfl
        | some r => rfl
    rw [heq]
    cases n with
    | undef => rfl
    | int m => rfl
    | null =>
      have hexp : (max 0 ((1 : Int) - 1)).toNat = (max 0 ((0 : Int) - 1)).toNat := by
        decide
      rw [show ((match Poker.JSNum.null with
          | Poker.JSNum.undef => (1 : Int) | Poker.JSNum.null => 1
          | Poker.JSNum.int m => m) : Int) = 1 from rfl,
        show ((match Poker.JSNum.null with
          | Poker.JSNum.undef => (1 : Int) | Poker.JSNum.null => 0
          | Poker.JSNum.int m => m) : Int) = 0 from rfl, hexp]

end PokerInject

namespace Poker

/-- Claim C10: every operation exported by the Node module and the
identically-named operation installed by the browser IIFE compute the same
function over the typed external interface (string tokens, cards,
evaluations, and an undefined / null / integer opponent count). -/
theorem module_inject_equivalence :
    (∀ t : String, PokerInject.parseCard t = Poker.parseCard t) ∧
    (∀ card : Card, PokerInject.cardToString card = Poker.cardToString card) ∧
    (∀ cards : List Card, PokerInject.evaluate5 cards = Poker.evaluate5 cards) ∧
    (∀ a b : HandEval, PokerInject.compareHands a b = Poker.compareHands a b) ∧
    (∀ tokens : List String, PokerInject.evaluate7 tokens = Poker.evaluate7 tokens) ∧
    (∀ hole : List String,
      PokerInject.preFlopStrength hole = Poker.preFlopStrength hole) ∧
    (∀ hole board : List String, ∀ n : JSNum,
      PokerInject.winProbability hole board n = Poker.winProbability hole board n) ∧
    PokerInject.HAND_RANK = Poker.HAND_RANK :=
  ⟨fun _ => rfl, fun _ => rfl, PokerInject.evaluate5_eq, fun _ _ => rfl,
    PokerInject.evaluate7_eq, PokerInject.preFlopStrength_eq,
    PokerInject.winProbability_eq, rfl⟩

end Poker
